import Mathlib

/-!
Verification of the name-similarity tool (src/main.rs) against its
natural-language specification.

The Rust program scans directory trees, tokenizes each matched filename
into an n-gram feature set, scores every pair of files by cosine
similarity over those sets, and prints the pairs above a threshold in a
deterministic order.  This file gives a shallow embedding of that code:

* filenames and paths are `String`, sizes are `ℕ`;
* `HashSet<String>` becomes `Finset String`;
* Rust's `str::split` (which keeps empty fragments between consecutive
  separators and at both ends) is modelled on the character list so it
  computes by kernel reduction; alphanumeric / lowercase tests use the
  ASCII `Char` primitives, matching the program on ASCII input;
* `f32` values are idealised as real numbers, except that the special
  values produced by division are kept explicit: the inductive `F32`
  has `nan` and `inf` constructors, because the code divides by
  `sqrt(l1*l2)` without guarding the empty-set case, and Lean's total
  real division (`x / 0 = 0`) would silently hide the NaN the program
  actually produces there;
* the `unreachable!()` panic for an out-of-range `trie_len` and the
  per-entry processing of the directory walk are modelled with
  `Option`: `none` is a panic during processing;
* `Vec::sort_by_key` (a stable sort) is modelled by a stable insertion
  sort, which produces the same list as any stable sort by the same key.
-/

namespace NameSimilarity

/-! ### Tokenizer: `process_file`, src/main.rs lines 40-59 -/

/-- Model of Rust `str::split` with a character predicate, on the list of
characters.  Like Rust's, it keeps empty fragments: a leading, trailing or
doubled separator contributes an empty word, and the empty input yields
one empty word. -/
def splitChars (p : Char → Bool) : List Char → List (List Char)
  | [] => [[]]
  | c :: rest =>
    if p c then [] :: splitChars p rest
    else
      match splitChars p rest with
      | [] => [[c]]
      | w :: ws => (c :: w) :: ws

/-- Source lines 40-43: split the filename on every non-alphanumeric
character and lower-case each fragment. -/
def splitWords (name : String) : List String :=
  (splitChars (fun c => !c.isAlphanum) name.toList).map
    (fun w => String.mk (w.map Char.toLower))

/-- Source line 47: `tuple_windows::<(_, _)>()` — all sliding windows of
two consecutive elements. -/
def tupleWindows2 : List String → List (String × String)
  | a :: b :: rest => (a, b) :: tupleWindows2 (b :: rest)
  | _ => []

/-- Source line 51: sliding windows of three consecutive elements. -/
def tupleWindows3 : List String → List (String × String × String)
  | a :: b :: c :: rest => (a, b, c) :: tupleWindows3 (b :: c :: rest)
  | _ => []

/-- Source line 55: sliding windows of four consecutive elements. -/
def tupleWindows4 : List String → List (String × String × String × String)
  | a :: b :: c :: d :: rest => (a, b, c, d) :: tupleWindows4 (b :: c :: d :: rest)
  | _ => []

/-- Source lines 44-59: the `match trie_len` building the token set from
the split words.  The `_ => unreachable!()` arm is a panic, modelled as
`none`. -/
def tokenize (name : String) (trie_len : ℕ) : Option (Finset String) :=
  let i := splitWords name
  match trie_len with
  | 1 => some i.toFinset
  | 2 => some ((tupleWindows2 i).map (fun v => v.1 ++ "." ++ v.2)).toFinset
  | 3 => some ((tupleWindows3 i).map
      (fun v => v.1 ++ "." ++ v.2.1 ++ "." ++ v.2.2)).toFinset
  | 4 => some ((tupleWindows4 i).map
      (fun v => v.1 ++ "." ++ v.2.1 ++ "." ++ v.2.2.1 ++ "." ++ v.2.2.2)).toFinset
  | _ => none

/-- One record per matched file: the `(PathBuf, u64, HashSet<String>)`
tuple accumulated by `process_file` (spec's FileRecord). -/
structure Entry where
  path : String
  size : ℕ
  tokens : Finset String
deriving Inhabited, DecidableEq

/-- Source lines 36-68: `process_file` appends a record for a directory
entry whose name matches the filename pattern (the regex is abstracted to
a predicate on the name); `none` models the `unreachable!()` panic raised
while tokenizing when `trie_len` is out of range.  A directory entry is
`(name, size)`. -/
def process_file (fmatch : String → Bool) (trie_len : ℕ)
    (acc : List Entry) (entry : String × ℕ) : Option (List Entry) :=
  if fmatch entry.1 then
    match tokenize entry.1 trie_len with
    | some parts => some (acc ++ [⟨entry.1, entry.2, parts⟩])
    | none => none
  else some acc

/-- Source lines 70-78: `scan_dir` folds `process_file` over the walk of
a root, here abstracted to the list of directory entries in traversal
order.  The result is `none` when processing some entry panics. -/
def scan_dir (fmatch : String → Bool) (trie_len : ℕ)
    (files : List (String × ℕ)) : Option (List Entry) :=
  files.foldlM (fun acc e => process_file fmatch trie_len acc e) []

/-! ### Similarity engine: `calculate_duplicates`, src/main.rs lines 80-109 -/

/-- Idealised `f32`: a real number, or one of the special values the
cosine division can produce.  Only `nan` (from `0.0 / 0.0`) and `inf`
(from `c / 0.0`, `c > 0`) are needed. -/
inductive F32 where
  | nan : F32
  | inf : F32
  | val : ℝ → F32

/-- Comparison `x > t` of an `F32` against a (finite, real) threshold,
with the IEEE rules the program relies on: any comparison with NaN is
false, and positive infinity exceeds every finite threshold. -/
def F32.gtR : F32 → ℝ → Prop
  | .nan, _ => False
  | .inf, _ => True
  | .val x, t => t < x

noncomputable instance (x : F32) (t : ℝ) : Decidable (F32.gtR x t) :=
  Classical.dec _

/-- Source line 99: `let cosine = (c as f32) / ((l1_sum * l2_sum) as f32).sqrt()`.
When `l1_sum * l2_sum = 0` the divisor is `0.0` and IEEE division gives
NaN for `c = 0` and `+inf` otherwise; there is no guard in the code. -/
noncomputable def cosine (c l1_sum l2_sum : ℕ) : F32 :=
  if l1_sum * l2_sum = 0 then (if c = 0 then .nan else .inf)
  else .val ((c : ℝ) / Real.sqrt ((l1_sum * l2_sum : ℕ) : ℝ))

/-- One emitted candidate pair: the `(f32, &PathBuf, &PathBuf, u64)`
tuple pushed on line 103, destructured as `(score, path_a, path_b, total)`
in `run`. -/
structure Pair where
  score : F32
  path_a : String
  path_b : String
  total : ℕ

/-- The tuple pushed on line 103 for an inner-loop pair `(a, b)` where
`a` is the outer (later) entry and `b` the inner (earlier) one. -/
noncomputable def mkPair (a b : Entry) : Pair :=
  ⟨cosine ((a.tokens ∩ b.tokens).card) a.tokens.card b.tokens.card,
   a.path, b.path, a.size + b.size⟩

/-- Source lines 94-104: one iteration of the inner loop — compute the
intersection and the cosine, and push the pair exactly when
`cosine > threshold`. -/
noncomputable def pairStep (threshold : ℝ) (a b : Entry) : Option Pair :=
  if F32.gtR (cosine ((a.tokens ∩ b.tokens).card) a.tokens.card b.tokens.card)
      threshold
  then some (mkPair a b) else none

/-- Index pairs visited by the double loop on lines 89-91: for each `i`
in order, every `j < i` in order. -/
def pairIndices (n : ℕ) : List (ℕ × ℕ) :=
  (List.range n).flatMap (fun i => (List.range i).map (fun j => (i, j)))

/-- Source lines 80-109: `calculate_duplicates` — every entry is
compared against every entry of strictly smaller index, in loop order,
and the qualifying pairs are collected in push order. -/
noncomputable def calculate_duplicates (entries : List Entry)
    (threshold : ℝ) : List Pair :=
  (pairIndices entries.length).filterMap
    (fun ij => pairStep threshold entries[ij.1]! entries[ij.2]!)

/-! ### Ranking: `run`, src/main.rs lines 111-134 -/

/-- Stable insertion by key: the new element goes in front of the first
element with a key `≥` its own, hence behind every earlier element with
an equal key. -/
def insertByKey {α : Type*} (f : α → ℕ) (a : α) : List α → List α
  | [] => [a]
  | b :: l => if f a ≤ f b then a :: b :: l else b :: insertByKey f a l

/-- Stable sort by key, modelling Rust's stable `Vec::sort_by_key`
(all stable sorts by the same key produce the same list). -/
def sortByKey {α : Type*} (f : α → ℕ) (l : List α) : List α :=
  l.foldr (insertByKey f) []

/-- Source line 123: the sort key `(v.0 * 10000.0) as u64`.  A Rust
float-to-`u64` cast truncates toward zero, sends NaN and negative values
to `0`, and saturates at `u64::MAX`. -/
noncomputable def quantU64 : F32 → ℕ
  | .nan => 0
  | .inf => 2 ^ 64 - 1
  | .val x => if x < 0 then 0 else min (⌊x * 10000⌋).toNat (2 ^ 64 - 1)

/-- Source lines 122-123: sort by combined size, then (stably) by the
quantized score. -/
noncomputable def rankPairs (duplicates : List Pair) : List Pair :=
  sortByKey (fun v => quantU64 v.score) (sortByKey (fun v => v.total) duplicates)

/-- Source lines 112-127 of `run`, from the entry list onward: compute
the duplicates, sort twice, and reverse when requested.  The returned
list is the output order. -/
noncomputable def runOutput (entries : List Entry) (threshold : ℝ)
    (reverse : Bool) : List Pair :=
  let duplicates := rankPairs (calculate_duplicates entries threshold)
  if reverse then duplicates.reverse else duplicates

/-! ### Spec-side definitions (for refinement claims) -/

/-- Follows the spec's words (section 4.3): cosine similarity of two
records is the intersection size over the square root of the product of
the set sizes. -/
noncomputable def cosineSpec (a b : Entry) : ℝ :=
  ((a.tokens ∩ b.tokens).card : ℝ) /
    Real.sqrt ((a.tokens.card : ℝ) * (b.tokens.card : ℝ))

/-- Follows the spec's words (section 4.2, step 3): all contiguous
sliding windows of `L` consecutive words, in order. -/
def listWindows {α : Type*} (L : ℕ) : List α → List (List α)
  | [] => []
  | a :: rest =>
    if rest.length + 1 < L then []
    else (a :: rest).take L :: listWindows L rest

/-- Joins a window of words with a literal `.` separator, as the spec
describes. -/
def joinDot : List String → String
  | [] => ""
  | w :: rest => rest.foldl (fun acc x => acc ++ "." ++ x) w

/-- Follows the spec's words (section 4.2): split, lower-case; for
`L = 1` the set of words, otherwise the set of dot-joined `L`-windows. -/
def tokenizeSpec (name : String) (L : ℕ) : Finset String :=
  let ws := splitWords name
  if L = 1 then ws.toFinset else ((listWindows L ws).map joinDot).toFinset

/-! ### Helper lemmas about the similarity engine -/

theorem mem_pairIndices {n i j : ℕ} : (i, j) ∈ pairIndices n ↔ i < n ∧ j < i := by
  constructor
  · intro h
    rcases List.mem_flatMap.mp h with ⟨a, ha, hb⟩
    rcases List.mem_map.mp hb with ⟨b, hbmem, heq⟩
    rcases Prod.mk.injEq .. ▸ heq with ⟨h1, h2⟩
    subst h1; subst h2
    exact ⟨List.mem_range.mp ha, List.mem_range.mp hbmem⟩
  · rintro ⟨hi, hj⟩
    exact List.mem_flatMap.mpr ⟨i, List.mem_range.mpr hi,
      List.mem_map.mpr ⟨j, List.mem_range.mpr hj, rfl⟩⟩

theorem nodup_pairIndices (n : ℕ) : (pairIndices n).Nodup := by
  refine List.nodup_flatMap.mpr ⟨?_, ?_⟩
  · intro i _
    refine List.Nodup.map ?_ (List.nodup_range i)
    intro a b h
    exact congrArg Prod.snd h
  · refine (List.pairwise_lt_range n).imp ?_
    intro a b hab x hx hy
    rcases List.mem_map.mp hx with ⟨j, _, rfl⟩
    rcases List.mem_map.mp hy with ⟨k, _, hk⟩
    have : a = b := congrArg Prod.fst hk.symm
    omega

theorem mem_calculate_duplicates {entries : List Entry} {t : ℝ} {p : Pair} :
    p ∈ calculate_duplicates entries t ↔
      ∃ i j, i < entries.length ∧ j < i ∧
        pairStep t entries[i]! entries[j]! = some p := by
  unfold calculate_duplicates
  rw [List.mem_filterMap]
  constructor
  · rintro ⟨⟨i, j⟩, hmem, hstep⟩
    rcases mem_pairIndices.mp hmem with ⟨hi, hj⟩
    exact ⟨i, j, hi, hj, hstep⟩
  · rintro ⟨i, j, hi, hj, hstep⟩
    exact ⟨(i, j), mem_pairIndices.mpr ⟨hi, hj⟩, hstep⟩

theorem pairStep_eq_some_iff {t : ℝ} {a b : Entry} {p : Pair} :
    pairStep t a b = some p ↔
      F32.gtR (cosine ((a.tokens ∩ b.tokens).card) a.tokens.card b.tokens.card) t ∧
        p = mkPair a b := by
  unfold pairStep
  constructor
  · intro h
    by_cases hc : F32.gtR
        (cosine ((a.tokens ∩ b.tokens).card) a.tokens.card b.tokens.card) t
    · rw [if_pos hc] at h
      exact ⟨hc, (Option.some_inj.mp h).symm⟩
    · rw [if_neg hc] at h
      cases h
  · rintro ⟨hc, rfl⟩
    rw [if_pos hc]

theorem F32.gtR_mono {x : F32} {t1 t2 : ℝ} (h : t1 ≤ t2) (hx : x.gtR t2) :
    x.gtR t1 := by
  cases x with
  | nan => exact hx
  | inf => exact hx
  | val v => exact lt_of_le_of_lt h hx

theorem inter_card_eq_zero {a b : Entry}
    (h : a.tokens.card * b.tokens.card = 0) :
    (a.tokens ∩ b.tokens).card = 0 := by
  rcases Nat.mul_eq_zero.mp h with h0 | h0
  · exact Nat.eq_zero_of_le_zero
      (h0 ▸ Finset.card_le_card Finset.inter_subset_left)
  · exact Nat.eq_zero_of_le_zero
      (h0 ▸ Finset.card_le_card Finset.inter_subset_right)

theorem gtR_cosine_iff {a b : Entry} {t : ℝ} (ht : 0 ≤ t) :
    F32.gtR (cosine ((a.tokens ∩ b.tokens).card) a.tokens.card b.tokens.card) t ↔
      cosineSpec a b > t := by
  unfold cosine cosineSpec
  by_cases h : a.tokens.card * b.tokens.card = 0
  · rw [if_pos h, inter_card_eq_zero h]
    simp only [if_pos rfl, Nat.cast_zero, zero_div, gt_iff_lt]
    exact iff_of_false (fun hf => hf) (not_lt.mpr ht)
  · rw [if_neg h, Nat.cast_mul]
    simp only [F32.gtR, gt_iff_lt]

theorem sqrt_nine : Real.sqrt 9 = 3 := by
  rw [show (9 : ℝ) = 3 ^ 2 by norm_num, Real.sqrt_sq (by norm_num : (0:ℝ) ≤ 3)]

theorem cosine_two_three_three : cosine 2 3 3 = F32.val (2 / 3) := by
  rw [cosine, if_neg (by norm_num)]
  congr 1
  push_cast
  rw [sqrt_nine]

/-! ### A concrete two-file corpus, used by the witnesses -/

/-- Record for the spec's example file `report_final.txt`. -/
def entryA : Entry := ⟨"report_final.txt", 10, {"report", "final", "txt"}⟩

/-- Record for the spec's example file `report_v2.txt`. -/
def entryB : Entry := ⟨"report_v2.txt", 20, {"report", "v2", "txt"}⟩

/-- Record of a file whose name has no alphanumeric runs modelled with an
empty token set. -/
def entryNone : Entry := ⟨"()", 5, ∅⟩

/-- A two-file corpus in discovery order. -/
def corpus : List Entry := [entryA, entryB]

theorem pairStep_BA {t : ℝ} (ht : t < 2 / 3) :
    pairStep t entryB entryA = some (mkPair entryB entryA) := by
  refine pairStep_eq_some_iff.mpr ⟨?_, rfl⟩
  rw [show (entryB.tokens ∩ entryA.tokens).card = 2 from by decide,
      show entryB.tokens.card = 3 from by decide,
      show entryA.tokens.card = 3 from by decide,
      cosine_two_three_three]
  exact ht

theorem memBA {t : ℝ} (ht : t < 2 / 3) :
    mkPair entryB entryA ∈ calculate_duplicates corpus t := by
  refine mem_calculate_duplicates.mpr ⟨1, 0, by decide, by decide, ?_⟩
  rw [show corpus[1]! = entryB from by decide,
      show corpus[0]! = entryA from by decide]
  exact pairStep_BA ht

theorem cosineSpec_BA : cosineSpec entryB entryA = 2 / 3 := by
  unfold cosineSpec
  rw [show (entryB.tokens ∩ entryA.tokens).card = 2 from by decide,
      show entryB.tokens.card = 3 from by decide,
      show entryA.tokens.card = 3 from by decide]
  push_cast
  rw [show (3 : ℝ) * 3 = 9 by norm_num, sqrt_nine]

/-! ### Stable sorting lemmas -/

/-- Lexicographic order on two keys: primary key `f` ascending, and `g`
ascending among equal `f`-keys. -/
def lexKey {α : Type*} (f g : α → ℕ) (x y : α) : Prop :=
  f x < f y ∨ (f x = f y ∧ g x ≤ g y)

theorem lexKey_le {α : Type*} (f g : α → ℕ) {x y : α} (h : lexKey f g x y) :
    f x ≤ f y := by
  rcases h with h | ⟨h, _⟩
  · exact le_of_lt h
  · exact le_of_eq h

theorem perm_insertByKey {α : Type*} (f : α → ℕ) (a : α) (l : List α) :
    (insertByKey f a l).Perm (a :: l) := by
  induction l with
  | nil => exact List.Perm.refl _
  | cons b l ih =>
    simp only [insertByKey]
    split
    · exact List.Perm.refl _
    · exact (List.Perm.cons b ih).trans (List.Perm.swap a b l)

theorem mem_insertByKey {α : Type*} (f : α → ℕ) {a x : α} {l : List α} :
    x ∈ insertByKey f a l ↔ x = a ∨ x ∈ l := by
  rw [(perm_insertByKey f a l).mem_iff, List.mem_cons]

theorem perm_sortByKey {α : Type*} (f : α → ℕ) (l : List α) :
    (sortByKey f l).Perm l := by
  induction l with
  | nil => exact List.Perm.refl _
  | cons a l ih =>
    exact (perm_insertByKey f a (sortByKey f l)).trans (List.Perm.cons a ih)

theorem pairwise_insert_lexKey {α : Type*} (f g : α → ℕ) (a : α) :
    ∀ l : List α, l.Pairwise (lexKey f g) → (∀ b ∈ l, g a ≤ g b) →
      (insertByKey f a l).Pairwise (lexKey f g) := by
  intro l
  induction l with
  | nil =>
    intro _ _
    exact List.pairwise_singleton _ _
  | cons b l ih =>
    intro hl hg
    rcases List.pairwise_cons.mp hl with ⟨hb, hl'⟩
    by_cases h : f a ≤ f b
    · simp only [insertByKey, if_pos h]
      refine List.pairwise_cons.mpr ⟨?_, hl⟩
      intro c hc
      rcases List.mem_cons.mp hc with rfl | hc
      · rcases lt_or_eq_of_le h with h' | h'
        · exact Or.inl h'
        · exact Or.inr ⟨h', hg c (List.mem_cons_self _ _)⟩
      · have hfb : f b ≤ f c := lexKey_le f g (hb c hc)
        rcases lt_or_eq_of_le (le_trans h hfb) with h' | h'
        · exact Or.inl h'
        · exact Or.inr ⟨h', hg c (List.mem_cons_of_mem b hc)⟩
    · simp only [insertByKey, if_neg h]
      refine List.pairwise_cons.mpr
        ⟨?_, ih hl' (fun c hc => hg c (List.mem_cons_of_mem b hc))⟩
      intro c hc
      rcases (mem_insertByKey f).mp hc with rfl | hc
      · exact Or.inl (lt_of_not_le h)
      · exact hb c hc

theorem pairwise_insertByKey_le {α : Type*} (f : α → ℕ) (a : α) :
    ∀ l : List α, l.Pairwise (fun x y => f x ≤ f y) →
      (insertByKey f a l).Pairwise (fun x y => f x ≤ f y) := by
  intro l
  induction l with
  | nil =>
    intro _
    exact List.pairwise_singleton _ _
  | cons b l ih =>
    intro hl
    rcases List.pairwise_cons.mp hl with ⟨hb, hl'⟩
    by_cases h : f a ≤ f b
    · simp only [insertByKey, if_pos h]
      refine List.pairwise_cons.mpr ⟨?_, hl⟩
      intro c hc
      rcases List.mem_cons.mp hc with rfl | hc
      · exact h
      · exact le_trans h (hb c hc)
    · simp only [insertByKey, if_neg h]
      refine List.pairwise_cons.mpr ⟨?_, ih hl'⟩
      intro c hc
      rcases (mem_insertByKey f).mp hc with rfl | hc
      · exact le_of_lt (lt_of_not_le h)
      · exact hb c hc

theorem sortByKey_sorted {α : Type*} (f : α → ℕ) (l : List α) :
    (sortByKey f l).Pairwise (fun x y => f x ≤ f y) := by
  induction l with
  | nil => exact List.Pairwise.nil
  | cons a l ih => exact pairwise_insertByKey_le f a (sortByKey f l) ih

theorem sortByKey_pairwise_lexKey {α : Type*} (f g : α → ℕ) :
    ∀ l : List α, l.Pairwise (fun x y => g x ≤ g y) →
      (sortByKey f l).Pairwise (lexKey f g) := by
  intro l
  induction l with
  | nil =>
    intro _
    exact List.Pairwise.nil
  | cons a l ih =>
    intro hl
    rcases List.pairwise_cons.mp hl with ⟨ha, hl'⟩
    refine pairwise_insert_lexKey f g a (sortByKey f l) (ih hl') ?_
    intro b hb
    exact ha b ((perm_sortByKey f l).mem_iff.mp hb)

/-! ### Tokenizer lemmas -/

theorem tupleWindows2_eq_nil_iff : ∀ l : List String,
    tupleWindows2 l = [] ↔ l.length < 2
  | [] => by simp [tupleWindows2]
  | [a] => by simp [tupleWindows2]
  | a :: b :: rest => by simp [tupleWindows2]

theorem tupleWindows3_eq_nil_iff : ∀ l : List String,
    tupleWindows3 l = [] ↔ l.length < 3
  | [] => by simp [tupleWindows3]
  | [a] => by simp [tupleWindows3]
  | [a, b] => by simp [tupleWindows3]
  | a :: b :: c :: rest => by simp [tupleWindows3]

theorem tupleWindows4_eq_nil_iff : ∀ l : List String,
    tupleWindows4 l = [] ↔ l.length < 4
  | [] => by simp [tupleWindows4]
  | [a] => by simp [tupleWindows4]
  | [a, b] => by simp [tupleWindows4]
  | [a, b, c] => by simp [tupleWindows4]
  | a :: b :: c :: d :: rest => by simp [tupleWindows4]

theorem listWindows_two_eq : ∀ l : List String,
    listWindows 2 l = (tupleWindows2 l).map (fun v => [v.1, v.2])
  | [] => rfl
  | [a] => rfl
  | a :: b :: rest => by
    rw [listWindows, if_neg (by simp), listWindows_two_eq (b :: rest)]
    simp [tupleWindows2]

theorem listWindows_three_eq : ∀ l : List String,
    listWindows 3 l = (tupleWindows3 l).map (fun v => [v.1, v.2.1, v.2.2])
  | [] => rfl
  | [a] => rfl
  | [a, b] => rfl
  | a :: b :: c :: rest => by
    rw [listWindows, if_neg (by simp), listWindows_three_eq (b :: c :: rest)]
    simp [tupleWindows3]

theorem listWindows_four_eq : ∀ l : List String,
    listWindows 4 l = (tupleWindows4 l).map (fun v => [v.1, v.2.1, v.2.2.1, v.2.2.2])
  | [] => rfl
  | [a] => rfl
  | [a, b] => rfl
  | [a, b, c] => rfl
  | a :: b :: c :: d :: rest => by
    rw [listWindows, if_neg (by simp), listWindows_four_eq (b :: c :: d :: rest)]
    simp [tupleWindows4]

theorem map_joinDot_two (l : List String) :
    (listWindows 2 l).map joinDot =
      (tupleWindows2 l).map (fun v => v.1 ++ "." ++ v.2) := by
  rw [listWindows_two_eq, List.map_map]
  rfl

theorem map_joinDot_three (l : List String) :
    (listWindows 3 l).map joinDot =
      (tupleWindows3 l).map (fun v => v.1 ++ "." ++ v.2.1 ++ "." ++ v.2.2) := by
  rw [listWindows_three_eq, List.map_map]
  rfl

theorem map_joinDot_four (l : List String) :
    (listWindows 4 l).map joinDot =
      (tupleWindows4 l).map
        (fun v => v.1 ++ "." ++ v.2.1 ++ "." ++ v.2.2.1 ++ "." ++ v.2.2.2) := by
  rw [listWindows_four_eq, List.map_map]
  rfl

theorem tokenize_eq_tokenizeSpec : ∀ (name : String) (L : ℕ), 1 ≤ L → L ≤ 4 →
    tokenize name L = some (tokenizeSpec name L) := by
  intro name L h1 h4
  interval_cases L
  · rfl
  · simp [tokenize, tokenizeSpec, map_joinDot_two]
  · simp [tokenize, tokenizeSpec, map_joinDot_three]
  · simp [tokenize, tokenizeSpec, map_joinDot_four]

/-! ### Claims -/

/-- C1 counterexample: at a record pair with empty token sets the
computed cosine is NaN, produced by the unguarded `0/0` division — it is
not the value `0` the claim asserts. -/
theorem cosine_empty_is_nan_not_zero :
    cosine ((entryNone.tokens ∩ entryNone.tokens).card) entryNone.tokens.card
        entryNone.tokens.card = F32.nan ∧ F32.nan ≠ F32.val 0 :=
  ⟨rfl, fun h => F32.noConfusion h⟩

/-- C1 amended: when either record's token set is empty the unguarded
division computes `0/0 = NaN` (there is no explicit empty-set branch);
the NaN fails the strict threshold comparison, so the pair is never
emitted, and no runtime fault occurs. -/
theorem empty_tokens_cosine_nan_and_no_pair (a b : Entry) (t : ℝ)
    (h : a.tokens = ∅ ∨ b.tokens = ∅) :
    cosine ((a.tokens ∩ b.tokens).card) a.tokens.card b.tokens.card = F32.nan ∧
      pairStep t a b = none := by
  have hcard : a.tokens.card * b.tokens.card = 0 := by
    rcases h with h | h <;> simp [h]
  have hnan : cosine ((a.tokens ∩ b.tokens).card) a.tokens.card b.tokens.card
      = F32.nan := by
    rw [cosine, if_pos hcard, inter_card_eq_zero hcard, if_pos rfl]
  refine ⟨hnan, ?_⟩
  rw [pairStep, hnan]
  exact if_neg (fun hf => hf)

/-- Witness for the C1 amended theorem at a concrete empty-token record. -/
theorem empty_tokens_cosine_nan_and_no_pair_witness :
    cosine ((entryNone.tokens ∩ entryA.tokens).card) entryNone.tokens.card
        entryA.tokens.card = F32.nan ∧
      pairStep 0 entryNone entryA = none :=
  empty_tokens_cosine_nan_and_no_pair entryNone entryA 0 (Or.inl rfl)

/-- C2: with `trie_len = 5` no failure is raised before scanning — a
scan encountering no matched file completes normally — and the failure
that does occur is a panic raised while processing the first matched
directory entry, not a configuration error surfaced to the caller
before scanning. -/
theorem trie_len_five_panics_per_file :
    scan_dir (fun _ => true) 5 [] = some [] ∧
      scan_dir (fun _ => true) 5 [("a.txt", 0)] = none :=
  ⟨rfl, rfl⟩

/-- C3 counterexample: a filename with no alphanumeric runs tokenizes at
width 1 to the non-empty set containing the empty token (the split keeps
empty fragments), while a filename with an alphanumeric run but fewer
words than the width tokenizes to the empty set. -/
theorem punct_only_tokens_not_empty :
    tokenize "-" 1 = some {""} ∧ ({""} : Finset String) ≠ ∅ ∧
      tokenize "a" 2 = some ∅ :=
  ⟨by decide, by decide, by decide⟩

/-- C3 amended: for every width accepted by the tokenizer, the token set
is empty exactly when the filename splits into fewer than `trie_len`
fragments (empty fragments included); in particular a punctuation-only
filename with enough fragments has a non-empty token set, and a filename
with alphanumeric runs but fewer fragments than the width has an empty
one. -/
theorem tokens_empty_iff_few_fragments (name : String) (L : ℕ)
    (toks : Finset String) (h : tokenize name L = some toks) :
    toks = ∅ ↔ (splitWords name).length < L := by
  rcases L with _ | _ | _ | _ | _ | n
  · simp [tokenize] at h
  · simp only [tokenize, Option.some.injEq] at h
    subst h
    rw [List.toFinset_eq_empty_iff, ← List.length_eq_zero]
    omega
  · simp only [tokenize, Option.some.injEq] at h
    subst h
    rw [List.toFinset_eq_empty_iff, List.map_eq_nil_iff, tupleWindows2_eq_nil_iff]
  · simp only [tokenize, Option.some.injEq] at h
    subst h
    rw [List.toFinset_eq_empty_iff, List.map_eq_nil_iff, tupleWindows3_eq_nil_iff]
  · simp only [tokenize, Option.some.injEq] at h
    subst h
    rw [List.toFinset_eq_empty_iff, List.map_eq_nil_iff, tupleWindows4_eq_nil_iff]
  · simp [tokenize] at h

/-- Witness for the C3 amended theorem: a one-word filename at width 2. -/
theorem tokens_empty_iff_few_fragments_witness :
    tokenize "a" 2 = some ∅ ∧
      ((∅ : Finset String) = ∅ ↔ (splitWords "a").length < 2) :=
  ⟨by decide, tokens_empty_iff_few_fragments "a" 2 ∅ (by decide)⟩

/-- C4: the ranking stage — the stable ascending sort by combined size
followed by the stable ascending sort by the quantized score
`floor(cosine * 10000)` cast to an integer — yields a permutation of the
pair list that is ordered by quantized score ascending, with combined
size ascending among pairs of equal quantized score. -/
theorem rankPairs_perm_and_lex_sorted (duplicates : List Pair) :
    (rankPairs duplicates).Perm duplicates ∧
      (rankPairs duplicates).Pairwise
        (fun p q => quantU64 p.score < quantU64 q.score ∨
          (quantU64 p.score = quantU64 q.score ∧ p.total ≤ q.total)) := by
  constructor
  · exact (perm_sortByKey _ _).trans (perm_sortByKey _ _)
  · exact sortByKey_pairwise_lexKey (fun v : Pair => quantU64 v.score)
      (fun v : Pair => v.total) (sortByKey (fun v : Pair => v.total) duplicates)
      (sortByKey_sorted _ _)

/-- C5: for thresholds in the spec's domain (`0 ≤ t`), the engine
retains a pair exactly when it comes from two records at positions
`j < i` of the discovery-ordered list whose cosine
`|Wa ∩ Wb| / sqrt(|Wa| * |Wb|)` strictly exceeds `t`; in particular no
returned pair has cosine `≤ t`. -/
theorem mem_calculate_duplicates_iff_cosineSpec_gt (entries : List Entry)
    (t : ℝ) (ht : 0 ≤ t) (p : Pair) :
    p ∈ calculate_duplicates entries t ↔
      ∃ i j, ∃ (hi : i < entries.length) (hj : j < entries.length), j < i ∧
        cosineSpec entries[i] entries[j] > t ∧
        p = mkPair entries[i] entries[j] := by
  rw [mem_calculate_duplicates]
  constructor
  · rintro ⟨i, j, hi, hj, hstep⟩
    have hjn : j < entries.length := lt_trans hj hi
    rw [getElem!_pos entries i hi, getElem!_pos entries j hjn] at hstep
    rcases pairStep_eq_some_iff.mp hstep with ⟨hgt, rfl⟩
    exact ⟨i, j, hi, hjn, hj, (gtR_cosine_iff ht).mp hgt, rfl⟩
  · rintro ⟨i, j, hi, hjn, hj, hgt, rfl⟩
    refine ⟨i, j, hi, hj, ?_⟩
    rw [getElem!_pos entries i hi, getElem!_pos entries j hjn]
    exact pairStep_eq_some_iff.mpr ⟨(gtR_cosine_iff ht).mpr hgt, rfl⟩

/-- Witness for C5: at the spec's example corpus and threshold 0, the
pair of the two report files is retained. -/
theorem mem_calculate_duplicates_iff_cosineSpec_gt_witness :
    (0 : ℝ) ≤ 0 ∧ mkPair entryB entryA ∈ calculate_duplicates corpus 0 := by
  refine ⟨le_refl 0, (mem_calculate_duplicates_iff_cosineSpec_gt corpus 0
    (le_refl 0) (mkPair entryB entryA)).mpr ?_⟩
  refine ⟨1, 0, by decide, by decide, by decide, ?_, ?_⟩
  · rw [show corpus[1] = entryB from rfl, show corpus[0] = entryA from rfl,
      cosineSpec_BA]
    norm_num
  · rw [show corpus[1] = entryB from rfl, show corpus[0] = entryA from rfl]

/-- C7: with the reverse option set, the output is exactly the
element-wise reversal of the output without it, for the same entries and
threshold — the fully sorted list is reversed as the final step. -/
theorem runOutput_reverse_eq_reverse (entries : List Entry) (t : ℝ) :
    runOutput entries t true = (runOutput entries t false).reverse := by
  simp [runOutput]

/-- C8: raising the threshold can only shrink the result: every pair
retained at the larger threshold is retained at the smaller one. -/
theorem calculate_duplicates_threshold_mono (entries : List Entry)
    (t1 t2 : ℝ) (h : t1 ≤ t2) (p : Pair)
    (hp : p ∈ calculate_duplicates entries t2) :
    p ∈ calculate_duplicates entries t1 := by
  rcases mem_calculate_duplicates.mp hp with ⟨i, j, hi, hj, hstep⟩
  rcases pairStep_eq_some_iff.mp hstep with ⟨hgt, rfl⟩
  exact mem_calculate_duplicates.mpr
    ⟨i, j, hi, hj, pairStep_eq_some_iff.mpr ⟨F32.gtR_mono h hgt, rfl⟩⟩

/-- Witness for C8 at the example corpus with thresholds 0 and 1/2. -/
theorem calculate_duplicates_threshold_mono_witness :
    (0 : ℝ) ≤ 1 / 2 ∧ mkPair entryB entryA ∈ calculate_duplicates corpus 0 :=
  ⟨by norm_num,
    calculate_duplicates_threshold_mono corpus 0 (1 / 2) (by norm_num)
      (mkPair entryB entryA) (memBA (by norm_num))⟩

/-- C9: every emitted candidate pair's score is a finite value in the
closed interval [0, 1]. -/
theorem emitted_score_in_unit_interval (entries : List Entry) (t : ℝ)
    (p : Pair) (hp : p ∈ calculate_duplicates entries t) :
    ∃ x : ℝ, p.score = F32.val x ∧ 0 ≤ x ∧ x ≤ 1 := by
  rcases mem_calculate_duplicates.mp hp with ⟨i, j, hi, hj, hstep⟩
  rcases pairStep_eq_some_iff.mp hstep with ⟨hgt, rfl⟩
  set a := entries[i]! with ha
  set b := entries[j]! with hb
  by_cases h0 : a.tokens.card * b.tokens.card = 0
  · exfalso
    rw [cosine, if_pos h0, inter_card_eq_zero h0, if_pos rfl] at hgt
    exact hgt
  · refine ⟨((a.tokens ∩ b.tokens).card : ℝ) /
      Real.sqrt ((a.tokens.card * b.tokens.card : ℕ) : ℝ), ?_, ?_, ?_⟩
    · show cosine ((a.tokens ∩ b.tokens).card) a.tokens.card b.tokens.card = _
      rw [cosine, if_neg h0]
    · exact div_nonneg (Nat.cast_nonneg _) (Real.sqrt_nonneg _)
    · have hpos : (0 : ℝ) < ((a.tokens.card * b.tokens.card : ℕ) : ℝ) := by
        exact_mod_cast Nat.pos_of_ne_zero h0
      rw [div_le_one (Real.sqrt_pos.mpr hpos),
        Real.le_sqrt (Nat.cast_nonneg _) (le_of_lt hpos)]
      have h1 : (a.tokens ∩ b.tokens).card ≤ a.tokens.card :=
        Finset.card_le_card Finset.inter_subset_left
      have h2 : (a.tokens ∩ b.tokens).card ≤ b.tokens.card :=
        Finset.card_le_card Finset.inter_subset_right
      have hsq : (a.tokens ∩ b.tokens).card ^ 2 ≤
          a.tokens.card * b.tokens.card := by
        rw [sq]
        exact Nat.mul_le_mul h1 h2
      exact_mod_cast hsq

/-- Witness for C9 at the example corpus and threshold 0. -/
theorem emitted_score_in_unit_interval_witness :
    ∃ x : ℝ, (mkPair entryB entryA).score = F32.val x ∧ 0 ≤ x ∧ x ≤ 1 :=
  emitted_score_in_unit_interval corpus 0 (mkPair entryB entryA)
    (memBA (by norm_num))

/-- C10: every emitted pair takes `path_a` from a record at a strictly
larger discovery index than the record giving `path_b`, and the loop
enumerates each unordered pair of records at most once: its index list
has no duplicates and never contains an index pair together with its
transpose. -/
theorem emitted_pair_indices (entries : List Entry) (t : ℝ) :
    (∀ p ∈ calculate_duplicates entries t,
        ∃ i j, ∃ (hi : i < entries.length) (hj : j < entries.length), j < i ∧
          p.path_a = entries[i].path ∧ p.path_b = entries[j].path) ∧
      (pairIndices entries.length).Nodup ∧
      ∀ i j, (i, j) ∈ pairIndices entries.length →
        (j, i) ∉ pairIndices entries.length := by
  refine ⟨?_, nodup_pairIndices _, ?_⟩
  · intro p hp
    rcases mem_calculate_duplicates.mp hp with ⟨i, j, hi, hj, hstep⟩
    have hjn : j < entries.length := lt_trans hj hi
    rw [getElem!_pos entries i hi, getElem!_pos entries j hjn] at hstep
    rcases pairStep_eq_some_iff.mp hstep with ⟨_, rfl⟩
    exact ⟨i, j, hi, hjn, hj, rfl, rfl⟩
  · intro i j hij hji
    rcases mem_pairIndices.mp hij with ⟨_, h1⟩
    rcases mem_pairIndices.mp hji with ⟨_, h2⟩
    omega

/-- Witness for C10 at the example corpus and threshold 0. -/
theorem emitted_pair_indices_witness :
    (∃ i j, ∃ (hi : i < corpus.length) (hj : j < corpus.length), j < i ∧
        (mkPair entryB entryA).path_a = corpus[i].path ∧
        (mkPair entryB entryA).path_b = corpus[j].path) ∧
      (pairIndices corpus.length).Nodup :=
  ⟨(emitted_pair_indices corpus 0).1 (mkPair entryB entryA)
      (memBA (by norm_num)),
    (emitted_pair_indices corpus 0).2.1⟩

/-- C6: tokenization splits the filename on every non-alphanumeric
character, lower-cases each fragment, and returns the set of words at
width 1 or the set of dot-joined sliding windows at widths 2-4, matching
the spec-side description and its two concrete examples. -/
theorem tokenize_matches_spec :
    (∀ (name : String) (L : ℕ), 1 ≤ L → L ≤ 4 →
        tokenize name L = some (tokenizeSpec name L)) ∧
      tokenize "a-b_c.txt" 1 = some {"a", "b", "c", "txt"} ∧
      tokenize "a-b_c.txt" 2 = some {"a.b", "b.c", "c.txt"} :=
  ⟨tokenize_eq_tokenizeSpec, by decide, by decide⟩

/-- Witness for C6 at the spec's example filename and width 2. -/
theorem tokenize_matches_spec_witness :
    1 ≤ 2 ∧ 2 ≤ 4 ∧
      tokenize "a-b_c.txt" 2 = some (tokenizeSpec "a-b_c.txt" 2) :=
  ⟨by decide, by decide,
    tokenize_matches_spec.1 "a-b_c.txt" 2 (by decide) (by decide)⟩

end NameSimilarity
